import Mathlib

/-!
# subfinder: source selection and the fofa source

A shallow embedding of two files of the repository:

* `v2/pkg/passive/sources.go`: the registry (`AllSources`, `NameSourceMap`, `init`) and
  `passive.New`, which selects the sources of an `Agent`;
* `v2/pkg/subscraping/sources/fofa/fofa.go`: `Source.Run` and `Source.Statistics`.

Conventions of the embedding.

* A Go `string` is a Lean `String`, read as its sequence of code points. The only
  place where the code indexes a string (`subdomain[strings.Index(subdomain, "//")+2:]`)
  does so behind an ASCII scheme, where byte offsets and code point offsets agree.
  `strings.ToLower` is applied to source names and to the scheme of a host, which are
  ASCII; letters outside ASCII are left as they are.
* A Go `int` is an `Int`. The one place where its range matters is the field `Size` of
  the decoded payload, which bounds the number of pages; the range is part of the type
  of the payload. The counters `errors` and `results` are not bounded: they count
  results sent, and 2^63 of them are out of reach.
* A Go `map[string]Source` is an association list without repeated keys. Go does not
  fix the order in which a map is traversed; every statement below about the sources
  of an `Agent` is therefore a statement about membership.
* Logging (`gologger`) and the release of response bodies have no effect on the values
  computed and are left out.
* The goroutine of `Run` and its channel are modelled by the sequence of `Result`s
  sent on the channel before it is closed, for a consumer that drains the channel.
  The page fetches issued through the session are recorded next to it.
* `timeTaken` is wall-clock time and is left out of the state.
-/

namespace strings

/-- Lower-casing of a string (`strings.ToLower`), on the letters `A`–`Z`. -/
def ToLower (s : String) : String := ⟨s.data.map Char.toLower⟩

/-- Test whether `s` begins with `pre` (`strings.HasPrefix`). -/
def HasPrefix (s pre : String) : Bool := pre.data.isPrefixOf s.data

/-- Offset of the first occurrence of `sep` in the text `cs`, which starts at offset `i`
of the whole string; `-1` when there is none. -/
def indexFrom (sep : List Char) : List Char → Nat → Int
  | [], i => if sep = [] then (i : Int) else -1
  | c :: cs, i => if sep.isPrefixOf (c :: cs) then (i : Int) else indexFrom sep cs (i + 1)

/-- Offset of the first occurrence of `sep` in `s`, or `-1` (`strings.Index`). -/
def Index (s sep : String) : Int := indexFrom sep.data s.data 0

/-- The slice expression `s[i:]`. -/
def sliceFrom (s : String) (i : Int) : String := ⟨s.data.drop i.toNat⟩

end strings

namespace subscraping

/-- The kind of a `Result` (`subscraping.ResultType`). -/
inductive ResultType
  | Subdomain
  | Error
  deriving DecidableEq, Repr

/-- A message a source sends on its channel (`subscraping.Result`). A Go `error` is
represented by its text; `none` is the nil error. -/
structure Result where
  Source : String
  Type_ : ResultType
  Value : String
  Error : Option String
  deriving DecidableEq, Repr

/-- The record `Source.Statistics` returns (`subscraping.Statistics`), without the
elapsed time. -/
structure Statistics where
  Errors : Int
  Results : Int
  Skipped : Bool
  deriving DecidableEq, Repr

/-- The part of the `subscraping.Source` interface that `passive.New` calls: the
constant answers of `Name`, `IsDefault`, `HasRecursiveSupport` and `NeedsKey`. -/
structure Source where
  Name : String
  IsDefault : Bool
  HasRecursiveSupport : Bool
  NeedsKey : Bool
  deriving DecidableEq, Repr

/-- Modelled from the spec: `subscraping.PickRandom` is not among the sources. The spec
says that one credential record is picked pseudo-randomly from the credential set and
that an empty set yields no usable credential. Here the draw is the argument `rnd`,
and an empty set yields the zero value `zero` of the record type. -/
def PickRandom {T : Type} (zero : T) (v : List T) (rnd : Nat) : T :=
  if v.length = 0 then zero else v.getD (rnd % v.length) zero

end subscraping

namespace passive

open subscraping

/-- A Go map from source names to sources: an association list. -/
abbrev SourceMap := List (String × Source)

/-- The lookup `m[k]`; `none` is the nil interface value. -/
def SourceMap.get (m : SourceMap) (k : String) : Option Source :=
  (m.find? (fun e => decide (e.1 = k))).map Prod.snd

/-- The assignment `m[k] = v`. -/
def SourceMap.set (m : SourceMap) (k : String) (v : Source) : SourceMap :=
  (k, v) :: m.filter (fun e => decide (e.1 ≠ k))

/-- The builtin `delete(m, k)`. -/
def SourceMap.delete (m : SourceMap) (k : String) : SourceMap :=
  m.filter (fun e => decide (e.1 ≠ k))

/-- Copy of every entry of `src` into `dst` (`maps.Copy`). -/
def maps.Copy (dst src : SourceMap) : SourceMap :=
  src.foldl (fun m e => SourceMap.set m e.1 e.2) dst

/-- The values of a map (`maps.Values`), in the order of the association list. -/
def maps.Values (m : SourceMap) : List Source := m.map Prod.snd

/-- The package initialiser: `NameSourceMap`, keyed by the lower-cased names of
`AllSources`. The table `AllSources` is an argument: of its 35 entries only the fofa
source is among the sources. -/
def init (AllSources : List Source) : SourceMap :=
  AllSources.foldl (fun m currentSource =>
    SourceMap.set m (strings.ToLower currentSource.Name) currentSource) []

/-- The agent: the sources selected for one enumeration. -/
structure Agent where
  sources : List Source
  deriving DecidableEq, Repr

/-- Lines 103–123 of `New`: the map `sources` before the exclusions. -/
def New.start (AllSources : List Source) (sourceNames : List String)
    (useAllSources : Bool) : SourceMap :=
  let NameSourceMap := init AllSources
  let sources : SourceMap := []
  if useAllSources then
    maps.Copy sources NameSourceMap
  else if sourceNames.length > 0 then
    sourceNames.foldl (fun m source =>
      match SourceMap.get NameSourceMap source with
      | none => m
      | some found => SourceMap.set m source found) sources
  else
    AllSources.foldl (fun m currentSource =>
      if currentSource.IsDefault then SourceMap.set m currentSource.Name currentSource
      else m) sources

/-- Lines 125–129 of `New`: the exclusions. -/
def New.exclude (sources : SourceMap) (excludedSourceNames : List String) : SourceMap :=
  if excludedSourceNames.length > 0 then
    excludedSourceNames.foldl (fun m sourceName => SourceMap.delete m sourceName) sources
  else sources

/-- Lines 131–137 of `New`: the loop over the entries of `sources` that deletes the key of
every source without recursive support. A Go `range` over a map visits every entry that
is not deleted before its turn, and the loop deletes no entry but the one it visits: it
visits all entries present at its start. -/
def New.recurse (sources : SourceMap) (useSourcesSupportingRecurse : Bool) : SourceMap :=
  if useSourcesSupportingRecurse then
    sources.foldl (fun m e =>
      if !e.2.HasRecursiveSupport then SourceMap.delete m e.1 else m) sources
  else sources

/-- The constructor `passive.New`. -/
def New (AllSources : List Source) (sourceNames excludedSourceNames : List String)
    (useAllSources useSourcesSupportingRecurse : Bool) : Agent :=
  let sources := New.start AllSources sourceNames useAllSources
  let sources := New.exclude sources excludedSourceNames
  let sources := New.recurse sources useSourcesSupportingRecurse
  { sources := maps.Values sources }

/-- The names of the registry are pairwise different. -/
abbrev UniqueNames (AllSources : List Source) : Prop :=
  (AllSources.map (fun s => s.Name)).Nodup

/-- The names of the registry are written in lower case. -/
abbrev LowerNames (AllSources : List Source) : Prop :=
  ∀ s ∈ AllSources, strings.ToLower s.Name = s.Name

/-- No key occurs twice in the association list. -/
def SourceMap.WF (m : SourceMap) : Prop := (m.map Prod.fst).Nodup

end passive

namespace fofa

open subscraping

/-- The largest and the smallest Go `int` (64 bits). -/
def maxInt : Int := 2 ^ 63 - 1

def minInt : Int := -(2 ^ 63)

/-- The decoded payload (`fofaResponse`). `Size` is a Go `int`; its range is part of
the type. -/
structure fofaResponse where
  Error : Bool
  ErrMsg : String
  Size : Int
  Results : List String
  Size_int : minInt ≤ Size ∧ Size ≤ maxInt

/-- A credential record (`apiKey`). -/
structure apiKey where
  username : String
  secret : String
  deriving DecidableEq, Repr

/-- The state of the fofa source (`Source`), without `timeTaken`. -/
structure Source where
  apiKeys : List apiKey
  errors : Int
  results : Int
  skipped : Bool
  deriving DecidableEq, Repr

def Source.Name (_s : Source) : String := "fofa"

def Source.IsDefault (_s : Source) : Bool := true

def Source.HasRecursiveSupport (_s : Source) : Bool := false

def Source.NeedsKey (_s : Source) : Bool := true

def Source.Statistics (s : Source) : Statistics :=
  { Errors := s.errors, Results := s.results, Skipped := s.skipped }

/-- The fofa source as an entry of `passive.AllSources`. -/
def Source.entry (s : Source) : subscraping.Source :=
  { Name := s.Name, IsDefault := s.IsDefault,
    HasRecursiveSupport := s.HasRecursiveSupport, NeedsKey := s.NeedsKey }

/-- The variable parts of the URL of one page fetch: `page`, `size`, `email`, `key` and
the domain that `qbase64` encodes. -/
structure Request where
  page : Int
  size : Int
  email : String
  key : String
  domain : String
  deriving DecidableEq, Repr

/-- What one page fetch comes to, in the order `Run` examines it: no response at all
(`err != nil && resp == nil`), a body that does not decode, or a decoded payload. A call
that reports an error next to a response is handled by `Run` like one without error: the
body is decoded. A call yields a response or an error; it never yields neither. -/
inductive Fetch
  | noResponse (err : String)
  | undecodable (err : String)
  | decoded (response : fofaResponse)

/-- The session, as far as `Run` uses it: the outcome of `SimpleGet` followed by the
decoding of the body, for each request. A run asks for every page at most once, so a
function of the request stands for any sequence of outcomes. -/
structure Session where
  SimpleGet : Request → Fetch

/-- What can be observed of one call of `Run` once the channel is closed: the source
afterwards, the results sent on the channel and the page fetches issued, both in
order. -/
structure Trace where
  source : Source
  results : List Result
  requests : List Request
  deriving DecidableEq, Repr

def pageSize : Int := 1000

/-- Lines 91–93: the value sent for a host of the payload. -/
def subdomainValue (subdomain : String) : String :=
  if strings.HasPrefix (strings.ToLower subdomain) "http://"
      || strings.HasPrefix (strings.ToLower subdomain) "https://" then
    strings.sliceFrom subdomain (strings.Index subdomain "//" + 2)
  else subdomain

/-- A send on the channel. -/
def Trace.send (t : Trace) (r : Result) : Trace :=
  { t with results := t.results ++ [r] }

/-- Lines 65–66, 74–75 and 82–85: an Error result is sent and `errors` incremented. -/
def Trace.fail (t : Trace) (err : String) : Trace :=
  let t := t.send { Source := t.source.Name, Type_ := .Error, Value := "", Error := some err }
  { t with source := { t.source with errors := t.source.errors + 1 } }

/-- Lines 90–96: the loop over `response.Results`. -/
def Trace.emit (t : Trace) (hosts : List String) : Trace :=
  hosts.foldl (fun t subdomain =>
    let t := t.send { Source := t.source.Name, Type_ := .Subdomain,
                      Value := subdomainValue subdomain, Error := none }
    { t with source := { t.source with results := t.source.results + 1 } }) t

/-- The request that line 63 builds for `currentPage`. -/
def request (randomApiKey : apiKey) (domain : String) (currentPage : Int) : Request :=
  { page := currentPage, size := pageSize, email := randomApiKey.username,
    key := randomApiKey.secret, domain := domain }

/-- Lines 59–99: the loop `for currentPage := 1; currentPage <= pages; currentPage++`,
from the test of its condition on. `fuel` bounds the number of such tests; `none` means
that the bound was reached. -/
def pageLoop (session : Session) (randomApiKey : apiKey) (domain : String) :
    Nat → Int → Int → Trace → Option Trace
  | 0, _, _, _ => none
  | fuel + 1, currentPage, pages, t =>
    if currentPage ≤ pages then
      let req := request randomApiKey domain currentPage
      let t := { t with requests := t.requests ++ [req] }
      match session.SimpleGet req with
      | .noResponse err => some (t.fail err)
      | .undecodable err => some (t.fail err)
      | .decoded response =>
        if response.Error then some (t.fail response.ErrMsg)
        else if response.Size > 0 then
          pageLoop session randomApiKey domain fuel (currentPage + 1)
            (Int.tdiv response.Size pageSize + 1) (t.emit response.Results)
        else
          pageLoop session randomApiKey domain fuel (currentPage + 1) pages t
    else some t

/-- The largest value `pages` can take: `Size / pageSize + 1` for the largest `int`. -/
def maxPages : Nat := (2 ^ 63 - 1) / 1000 + 1

/-- The method `Source.Run`, with the draw `rnd` of `PickRandom`. The loop is given
`maxPages + 1` tests of its condition, which it cannot exhaust (`Run_returns`). -/
def Source.Run (s : Source) (rnd : Nat) (domain : String) (session : Session) :
    Option Trace :=
  let s := { s with errors := 0, results := 0 }
  let randomApiKey := PickRandom { username := "", secret := "" } s.apiKeys rnd
  if randomApiKey.username = "" || randomApiKey.secret = "" then
    some { source := { s with skipped := true }, results := [], requests := [] }
  else
    pageLoop session randomApiKey domain (maxPages + 1) 1 1
      { source := s, results := [], requests := [] }

/-- The Error result `Run` sends for a failed page fetch. -/
def errorResult (err : String) : Result :=
  { Source := "fofa", Type_ := .Error, Value := "", Error := some err }

/-- The Subdomain result `Run` sends for a host of a payload. -/
def subdomainResult (host : String) : Result :=
  { Source := "fofa", Type_ := .Subdomain, Value := subdomainValue host, Error := none }

/-- The error text of a failing page fetch: no response, a body that does not decode,
or a payload with `error = true`, which carries `errmsg`. `none` for a page that did not
fail. -/
def Fetch.failure : Fetch → Option String
  | .noResponse err => some err
  | .undecodable err => some err
  | .decoded response => if response.Error then some response.ErrMsg else none

/-- The results one page fetch accounts for: the Error result of a failing page, the
Subdomain results of the hosts of a payload with a positive size, nothing otherwise. -/
def Fetch.results (f : Fetch) : List Result :=
  match f.failure, f with
  | some err, _ => [errorResult err]
  | none, .decoded response =>
    if response.Size > 0 then response.Results.map subdomainResult else []
  | none, _ => []

/-- The results a sequence of page fetches accounts for, page after page. -/
def resultsOf : List Fetch → List Result
  | [] => []
  | f :: fs => f.results ++ resultsOf fs

/-- The pages `first, first + 1, …`, `n` of them. -/
def pagesFrom (first : Int) : Nat → List Int
  | 0 => []
  | n + 1 => first :: pagesFrom (first + 1) n

/-- The number of Subdomain results and of Error results of a sequence. -/
def countSubdomains (rs : List Result) : Nat :=
  rs.countP (fun r => decide (r.Type_ = .Subdomain))

def countErrors (rs : List Result) : Nat :=
  rs.countP (fun r => decide (r.Type_ = .Error))

/-- A session that answers every page with an undamaged payload of total size `size`:
the hosts `hosts page` of that page. -/
def fullSession (size : Int) (h : minInt ≤ size ∧ size ≤ maxInt)
    (hosts : Int → List String) : Session :=
  { SimpleGet := fun req =>
      .decoded { Error := false, ErrMsg := "", Size := size, Results := hosts req.page,
                 Size_int := h } }

/-- The counters of the source agree with the results sent so far. -/
def Trace.Counted (t : Trace) : Prop :=
  t.source.results = (countSubdomains t.results : Int) ∧
    t.source.errors = (countErrors t.results : Int)

/-- The outcome of the fetch of page `page` with the credential `randomApiKey`. -/
def fetchPage (session : Session) (randomApiKey : apiKey) (domain : String) (page : Int) :
    Fetch :=
  session.SimpleGet (request randomApiKey domain page)

/-- The value of `pages` after a page that did not fail (line 97): recomputed from a
payload with a positive size, kept otherwise. -/
def nextPages (pages : Int) : Fetch → Int
  | .decoded response =>
    if response.Error then pages
    else if response.Size > 0 then Int.tdiv response.Size pageSize + 1 else pages
  | _ => pages

/-- The value of `pages` after the fetches `fs`, from its initial value 1. -/
def pagesAfter (fs : List Fetch) : Int := fs.foldl nextPages 1

/-- A session for a concrete check: page 1 is a payload of total size 1500 with two hosts,
every later page a payload with `error = true` and the message `quota exceeded`. -/
def quotaSession : Session :=
  { SimpleGet := fun req =>
      if req.page = 1 then
        .decoded { Error := false, ErrMsg := "", Size := 1500,
                   Results := ["www.example.com", "HTTPS://api.example.com"],
                   Size_int := by decide }
      else
        .decoded { Error := true, ErrMsg := "quota exceeded", Size := 0, Results := [],
                   Size_int := by decide } }

/-- The page count in the words of the spec: `ceil(size / pageSize)`. -/
def ceilPages (size : Int) : Int := (size + pageSize - 1) / pageSize

end fofa

/-- A small registry for concrete checks: the fofa source of the repository next to two
further entries, one of them not a default source, one with recursive support. -/
def sampleSources : List subscraping.Source :=
  [ fofa.Source.entry { apiKeys := [], errors := 0, results := 0, skipped := false },
    { Name := "crtsh", IsDefault := true, HasRecursiveSupport := true, NeedsKey := false },
    { Name := "github", IsDefault := false, HasRecursiveSupport := false, NeedsKey := true } ]

/-! ## Association lists -/

namespace passive

open subscraping

theorem SourceMap.mem_set {m : SourceMap} {k : String} {v : Source} {e : String × Source} :
    e ∈ SourceMap.set m k v ↔ e = (k, v) ∨ (e ∈ m ∧ e.1 ≠ k) := by
  simp [SourceMap.set]

theorem SourceMap.mem_delete {m : SourceMap} {k : String} {e : String × Source} :
    e ∈ SourceMap.delete m k ↔ e ∈ m ∧ e.1 ≠ k := by
  simp [SourceMap.delete]

theorem SourceMap.WF_nil : SourceMap.WF [] := by
  simp [SourceMap.WF]

theorem SourceMap.WF_delete {m : SourceMap} (k : String) (h : SourceMap.WF m) :
    SourceMap.WF (SourceMap.delete m k) := by
  unfold SourceMap.WF SourceMap.delete at *
  exact List.Nodup.sublist (List.Sublist.map _ (List.filter_sublist m)) h

theorem SourceMap.WF_set {m : SourceMap} (k : String) (v : Source) (h : SourceMap.WF m) :
    SourceMap.WF (SourceMap.set m k v) := by
  have hd := SourceMap.WF_delete k h
  unfold SourceMap.WF SourceMap.set SourceMap.delete at *
  rw [List.map_cons, List.nodup_cons]
  refine ⟨?_, hd⟩
  simp

theorem SourceMap.WF_foldl {α : Type} (f : SourceMap → α → SourceMap)
    (hf : ∀ m a, SourceMap.WF m → SourceMap.WF (f m a)) (l : List α) (m : SourceMap)
    (h : SourceMap.WF m) : SourceMap.WF (l.foldl f m) := by
  induction l generalizing m with
  | nil => exact h
  | cons a l ih => exact ih _ (hf m a h)

/-- In a map without repeated keys, an entry is determined by its key. -/
theorem SourceMap.WF.eq_of_key {m : SourceMap} (h : SourceMap.WF m) {e e' : String × Source}
    (he : e ∈ m) (he' : e' ∈ m) (hk : e.1 = e'.1) : e = e' :=
  List.inj_on_of_nodup_map h he he' hk

theorem SourceMap.get_eq_none {m : SourceMap} {k : String} :
    SourceMap.get m k = none ↔ ∀ e ∈ m, e.1 ≠ k := by
  simp [SourceMap.get, List.find?_eq_none]

theorem SourceMap.get_eq_some {m : SourceMap} (h : SourceMap.WF m) {k : String} {v : Source} :
    SourceMap.get m k = some v ↔ (k, v) ∈ m := by
  constructor
  · intro hg
    simp only [SourceMap.get, Option.map_eq_some'] at hg
    obtain ⟨e, he, rfl⟩ := hg
    have hm := List.mem_of_find?_eq_some he
    have hp := List.find?_some he
    simp only [decide_eq_true_eq] at hp
    subst hp
    exact hm
  · intro hm
    cases hg : SourceMap.get m k with
    | none => exact absurd rfl (SourceMap.get_eq_none.mp hg _ hm)
    | some w =>
      simp only [SourceMap.get, Option.map_eq_some'] at hg
      obtain ⟨e, he, rfl⟩ := hg
      have hm' := List.mem_of_find?_eq_some he
      have hp := List.find?_some he
      simp only [decide_eq_true_eq] at hp
      have := h.eq_of_key hm' hm hp
      rw [this]

end passive

/-! ## The loops of `New` -/

namespace passive

open subscraping

/-- A loop that stores `val a` under `key a` for the elements `a` with `p a`, over a
list whose keys are pairwise different. -/
theorem mem_foldl_set {α : Type} (key : α → String) (val : α → Source) (p : α → Bool)
    (l : List α) (hnd : (l.map key).Nodup) (m : SourceMap) (e : String × Source) :
    e ∈ l.foldl (fun m a => if p a = true then SourceMap.set m (key a) (val a) else m) m ↔
      (∃ a ∈ l, key a = e.1 ∧ val a = e.2 ∧ p a = true) ∨
        (e ∈ m ∧ ∀ a ∈ l, p a = true → key a ≠ e.1) := by
  induction l generalizing m with
  | nil => simp
  | cons a l ih =>
    rw [List.map_cons, List.nodup_cons] at hnd
    obtain ⟨ha, hl⟩ := hnd
    rw [List.foldl_cons, ih hl]
    have hkey : ∀ s ∈ l, key s ≠ key a := fun s hs h => ha (h ▸ List.mem_map_of_mem key hs)
    by_cases hp : p a = true
    · simp only [hp, if_true, SourceMap.mem_set, List.mem_cons, forall_eq_or_imp, true_implies,
        exists_eq_or_imp]
      constructor
      · rintro (h | ⟨rfl | ⟨h1, h2⟩, h3⟩)
        · exact Or.inl (Or.inr h)
        · exact Or.inl (Or.inl ⟨rfl, rfl, trivial⟩)
        · exact Or.inr ⟨h1, fun h => h2 h.symm, h3⟩
      · rintro ((⟨h1, h2, _⟩ | h) | ⟨h1, h2, h3⟩)
        · refine Or.inr ⟨Or.inl (Prod.ext h1.symm h2.symm), ?_⟩
          intro s hs _ h
          exact hkey s hs (by rw [h, ← h1])
        · exact Or.inl h
        · exact Or.inr ⟨Or.inr ⟨h1, fun h => h2 h.symm⟩, h3⟩
    · have hpf : p a = false := by simpa using hp
      simp only [hpf, Bool.false_eq_true, if_false, List.mem_cons, forall_eq_or_imp,
        false_implies, true_and, exists_eq_or_imp, and_false, false_or]

/-- The loop of lines 109–115 over the include list. -/
theorem mem_foldl_include (N : SourceMap) (l : List String) (m : SourceMap)
    (e : String × Source) :
    e ∈ l.foldl (fun m source =>
        match SourceMap.get N source with
        | none => m
        | some found => SourceMap.set m source found) m ↔
      (e.1 ∈ l ∧ SourceMap.get N e.1 = some e.2) ∨
        (e ∈ m ∧ (e.1 ∈ l → SourceMap.get N e.1 = none)) := by
  induction l generalizing m with
  | nil => simp
  | cons a l ih =>
    rw [List.foldl_cons, ih]
    cases hg : SourceMap.get N a with
    | none =>
      simp only [List.mem_cons]
      constructor
      · rintro (⟨h1, h2⟩ | ⟨h1, h2⟩)
        · exact Or.inl ⟨Or.inr h1, h2⟩
        · refine Or.inr ⟨h1, ?_⟩
          rintro (h | h)
          · rw [h]; exact hg
          · exact h2 h
      · rintro (⟨h1 | h1, h2⟩ | ⟨h1, h2⟩)
        · rw [h1, hg] at h2; exact absurd h2 (by simp)
        · exact Or.inl ⟨h1, h2⟩
        · exact Or.inr ⟨h1, fun h => h2 (Or.inr h)⟩
    | some found =>
      simp only [List.mem_cons, SourceMap.mem_set]
      constructor
      · rintro (⟨h1, h2⟩ | ⟨rfl | ⟨h1, h3⟩, h2⟩)
        · exact Or.inl ⟨Or.inr h1, h2⟩
        · exact Or.inl ⟨Or.inl rfl, hg⟩
        · refine Or.inr ⟨h1, ?_⟩
          rintro (h | h)
          · exact absurd h h3
          · exact h2 h
      · rintro (⟨h1 | h1, h2⟩ | ⟨h1, h2⟩)
        · by_cases hl : e.1 ∈ l
          · exact Or.inl ⟨hl, h2⟩
          · refine Or.inr ⟨Or.inl ?_, fun h => absurd h hl⟩
            rw [h1, hg] at h2
            cases e
            simp only [Option.some.injEq] at h2
            simp only at h1
            rw [h1, h2]
        · exact Or.inl ⟨h1, h2⟩
        · by_cases ha : e.1 = a
          · have := h2 (Or.inl ha)
            rw [ha, hg] at this
            exact absurd this (by simp)
          · exact Or.inr ⟨Or.inr ⟨h1, ha⟩, fun h => h2 (Or.inr h)⟩

/-- The loop of lines 126–128 over the exclude list. -/
theorem mem_foldl_delete (l : List String) (m : SourceMap) (e : String × Source) :
    e ∈ l.foldl (fun m sourceName => SourceMap.delete m sourceName) m ↔
      e ∈ m ∧ e.1 ∉ l := by
  induction l generalizing m with
  | nil => simp
  | cons a l ih =>
    rw [List.foldl_cons, ih, SourceMap.mem_delete, List.mem_cons]
    constructor
    · rintro ⟨⟨h1, h2⟩, h3⟩
      exact ⟨h1, fun h => h.elim h2 h3⟩
    · rintro ⟨h1, h2⟩
      exact ⟨⟨h1, fun h => h2 (Or.inl h)⟩, fun h => h2 (Or.inr h)⟩

/-- The loop of lines 132–136, over a list `l` of entries. -/
theorem mem_foldl_recurse (l : List (String × Source)) (m : SourceMap)
    (e : String × Source) :
    e ∈ l.foldl (fun m e =>
        if (!e.2.HasRecursiveSupport) = true then SourceMap.delete m e.1 else m) m ↔
      e ∈ m ∧ ∀ d ∈ l, d.2.HasRecursiveSupport = false → d.1 ≠ e.1 := by
  induction l generalizing m with
  | nil => simp
  | cons a l ih =>
    rw [List.foldl_cons, ih]
    cases hr : a.2.HasRecursiveSupport
    · simp only [Bool.not_false, if_true, SourceMap.mem_delete, List.mem_cons,
        forall_eq_or_imp, hr, true_implies]
      constructor
      · rintro ⟨⟨h1, h2⟩, h3⟩
        exact ⟨h1, fun h => h2 h.symm, h3⟩
      · rintro ⟨h1, h2, h3⟩
        exact ⟨⟨h1, fun h => h2 h.symm⟩, h3⟩
    · simp [hr]

end passive

/-! ## The stages of `New` -/

namespace passive

open subscraping

theorem init_WF (AllSources : List Source) : SourceMap.WF (init AllSources) :=
  SourceMap.WF_foldl _ (fun _ _ h => SourceMap.WF_set _ _ h) _ _ SourceMap.WF_nil

/-- The entries of `NameSourceMap`, for a registry whose lower-cased names are pairwise
different. -/
theorem mem_init (AllSources : List Source)
    (h : (AllSources.map (fun s => strings.ToLower s.Name)).Nodup) (e : String × Source) :
    e ∈ init AllSources ↔ e.2 ∈ AllSources ∧ strings.ToLower e.2.Name = e.1 := by
  have := mem_foldl_set (fun s : Source => strings.ToLower s.Name) id (fun _ => true)
    AllSources h [] e
  simp only [if_true, id] at this
  unfold init
  rw [this]
  simp

theorem Copy_WF (dst src : SourceMap) (h : SourceMap.WF dst) :
    SourceMap.WF (maps.Copy dst src) :=
  SourceMap.WF_foldl _ (fun _ _ h => SourceMap.WF_set _ _ h) _ _ h

theorem mem_Copy_nil (src : SourceMap) (h : SourceMap.WF src) (e : String × Source) :
    e ∈ maps.Copy [] src ↔ e ∈ src := by
  have := mem_foldl_set (fun d : String × Source => d.1) (fun d => d.2) (fun _ => true)
    src h [] e
  simp only [if_true] at this
  unfold maps.Copy
  rw [this]
  simp only [List.not_mem_nil, false_and, or_false, and_true]
  constructor
  · rintro ⟨a, ha, h1, h2⟩
    have : a = e := Prod.ext h1 h2
    exact this ▸ ha
  · intro he
    exact ⟨e, he, rfl, rfl⟩

theorem mem_Values (m : SourceMap) (s : Source) :
    s ∈ maps.Values m ↔ ∃ k, (k, s) ∈ m := by
  simp [maps.Values]

theorem start_WF (AllSources : List Source) (sourceNames : List String) (useAllSources : Bool) :
    SourceMap.WF (New.start AllSources sourceNames useAllSources) := by
  unfold New.start
  simp only
  split
  · exact Copy_WF _ _ SourceMap.WF_nil
  · split
    · refine SourceMap.WF_foldl _ (fun m a h => ?_) _ _ SourceMap.WF_nil
      split
      · exact h
      · exact SourceMap.WF_set _ _ h
    · refine SourceMap.WF_foldl _ (fun m a h => ?_) _ _ SourceMap.WF_nil
      split
      · exact SourceMap.WF_set _ _ h
      · exact h

theorem exclude_WF (m : SourceMap) (excludedSourceNames : List String) (h : SourceMap.WF m) :
    SourceMap.WF (New.exclude m excludedSourceNames) := by
  unfold New.exclude
  split
  · exact SourceMap.WF_foldl _ (fun _ _ h => SourceMap.WF_delete _ h) _ _ h
  · exact h

/-- With `useAllSources` the map is a copy of `NameSourceMap`. -/
theorem mem_start_all (AllSources : List Source) (sourceNames : List String)
    (h : (AllSources.map (fun s => strings.ToLower s.Name)).Nodup) (e : String × Source) :
    e ∈ New.start AllSources sourceNames true ↔
      e.2 ∈ AllSources ∧ strings.ToLower e.2.Name = e.1 := by
  unfold New.start
  simp only [if_true]
  rw [mem_Copy_nil _ (init_WF _), mem_init _ h]

/-- With a non-empty include list the map holds the entries of `NameSourceMap` whose
key is in the list. -/
theorem mem_start_include (AllSources : List Source) (sourceNames : List String)
    (hne : sourceNames ≠ [])
    (h : (AllSources.map (fun s => strings.ToLower s.Name)).Nodup) (e : String × Source) :
    e ∈ New.start AllSources sourceNames false ↔
      e.1 ∈ sourceNames ∧ e.2 ∈ AllSources ∧ strings.ToLower e.2.Name = e.1 := by
  unfold New.start
  have hlen : sourceNames.length > 0 := List.length_pos.mpr hne
  simp only [Bool.false_eq_true, if_false, hlen, if_true]
  rw [mem_foldl_include, SourceMap.get_eq_some (init_WF _), mem_init _ h]
  simp

/-- With an empty include list the map holds the default sources under their names. -/
theorem mem_start_default (AllSources : List Source)
    (h : (AllSources.map (fun s => s.Name)).Nodup) (e : String × Source) :
    e ∈ New.start AllSources [] false ↔
      e.2 ∈ AllSources ∧ e.2.IsDefault = true ∧ e.2.Name = e.1 := by
  have := mem_foldl_set (fun s : Source => s.Name) id (fun s => s.IsDefault)
    AllSources h [] e
  simp only [id] at this
  unfold New.start
  simp only [Bool.false_eq_true, if_false, List.length_nil, gt_iff_lt, lt_self_iff_false]
  rw [this]
  simp only [List.not_mem_nil, false_and, or_false]
  constructor
  · rintro ⟨a, ha, h1, rfl, h3⟩
    exact ⟨ha, h3, h1⟩
  · rintro ⟨h1, h2, h3⟩
    exact ⟨e.2, h1, h3, rfl, h2⟩

theorem mem_exclude (m : SourceMap) (excludedSourceNames : List String)
    (e : String × Source) :
    e ∈ New.exclude m excludedSourceNames ↔ e ∈ m ∧ e.1 ∉ excludedSourceNames := by
  unfold New.exclude
  split
  · exact mem_foldl_delete _ _ _
  · rename_i h
    have : excludedSourceNames = [] := by
      cases excludedSourceNames with
      | nil => rfl
      | cons a l => simp at h
    simp [this]

theorem mem_recurse (m : SourceMap) (h : SourceMap.WF m) (useSourcesSupportingRecurse : Bool)
    (e : String × Source) :
    e ∈ New.recurse m useSourcesSupportingRecurse ↔
      e ∈ m ∧ (useSourcesSupportingRecurse = true → e.2.HasRecursiveSupport = true) := by
  unfold New.recurse
  cases useSourcesSupportingRecurse with
  | false => simp
  | true =>
    simp only [if_true, true_implies]
    rw [mem_foldl_recurse]
    constructor
    · rintro ⟨h1, h2⟩
      refine ⟨h1, ?_⟩
      cases hr : e.2.HasRecursiveSupport with
      | true => rfl
      | false => exact absurd rfl (h2 e h1 hr)
    · rintro ⟨h1, h2⟩
      refine ⟨h1, fun d hd hr hk => ?_⟩
      have := h.eq_of_key hd h1 hk
      rw [this, h2] at hr
      exact absurd hr (by simp)

end passive

/-! ## The sources of the agent -/

namespace passive

open subscraping

theorem lowerKeys_nodup (AllSources : List Source) (hU : UniqueNames AllSources)
    (hL : LowerNames AllSources) :
    (AllSources.map (fun s => strings.ToLower s.Name)).Nodup := by
  have : AllSources.map (fun s => strings.ToLower s.Name) = AllSources.map (fun s => s.Name) :=
    List.map_congr_left hL
  rw [this]
  exact hU

/-- The values of a map without repeated keys are pairwise different when the key of an
entry can be read off its value. -/
theorem Values_nodup (m : SourceMap) (h : SourceMap.WF m) (key : Source → String)
    (hkey : ∀ e ∈ m, key e.2 = e.1) : (maps.Values m).Nodup := by
  unfold maps.Values
  refine List.Nodup.map_on ?_ (List.Nodup.of_map _ h)
  intro x hx y hy hxy
  exact Prod.ext (by rw [← hkey x hx, ← hkey y hy, hxy]) hxy

theorem New_WF (AllSources : List Source) (sourceNames excludedSourceNames : List String)
    (useAllSources : Bool) :
    SourceMap.WF (New.exclude (New.start AllSources sourceNames useAllSources)
      excludedSourceNames) :=
  exclude_WF _ _ (start_WF _ _ _)

/-- The sources of the agent, read off the three stages of `New`. -/
theorem mem_New (AllSources : List Source) (sourceNames excludedSourceNames : List String)
    (useAllSources useSourcesSupportingRecurse : Bool) (s : Source) :
    s ∈ (New AllSources sourceNames excludedSourceNames useAllSources
        useSourcesSupportingRecurse).sources ↔
      ∃ k, (k, s) ∈ New.start AllSources sourceNames useAllSources ∧
        k ∉ excludedSourceNames ∧
        (useSourcesSupportingRecurse = true → s.HasRecursiveSupport = true) := by
  unfold New
  simp only [mem_Values, mem_recurse _ (New_WF _ _ _ _), mem_exclude, and_assoc]

/-- The sources of the agent for a registry of pairwise different lower-case names. -/
theorem mem_New_of_lower (AllSources : List Source) (hU : UniqueNames AllSources)
    (hL : LowerNames AllSources) (sourceNames excludedSourceNames : List String)
    (useAllSources useSourcesSupportingRecurse : Bool) (s : Source) :
    s ∈ (New AllSources sourceNames excludedSourceNames useAllSources
        useSourcesSupportingRecurse).sources ↔
      s ∈ AllSources ∧
        (useAllSources = true ∨ (sourceNames ≠ [] ∧ s.Name ∈ sourceNames) ∨
          (sourceNames = [] ∧ s.IsDefault = true)) ∧
        s.Name ∉ excludedSourceNames ∧
        (useSourcesSupportingRecurse = true → s.HasRecursiveSupport = true) := by
  have hK := lowerKeys_nodup AllSources hU hL
  rw [mem_New]
  cases useAllSources with
  | true =>
    simp only [mem_start_all _ _ hK, true_or, true_and]
    constructor
    · rintro ⟨k, ⟨h1, h2⟩, h3, h4⟩
      rw [hL s h1] at h2
      exact ⟨h1, h2 ▸ h3, h4⟩
    · rintro ⟨h1, h2, h3⟩
      exact ⟨s.Name, ⟨h1, hL s h1⟩, h2, h3⟩
  | false =>
    by_cases hne : sourceNames = []
    · subst hne
      simp only [mem_start_default _ hU, Bool.false_eq_true, false_or, ne_eq, not_true_eq_false,
        false_and, true_and, List.not_mem_nil]
      constructor
      · rintro ⟨k, ⟨h1, h2, h3⟩, h4, h5⟩
        exact ⟨h1, h2, h3 ▸ h4, h5⟩
      · rintro ⟨h1, h2, h3, h4⟩
        exact ⟨s.Name, ⟨h1, h2, rfl⟩, h3, h4⟩
    · simp only [mem_start_include _ _ hne hK, Bool.false_eq_true, false_or, ne_eq, hne,
        not_false_eq_true, true_and, false_and, or_false]
      constructor
      · rintro ⟨k, ⟨h1, h2, h3⟩, h4, h5⟩
        rw [hL s h2] at h3
        exact ⟨h2, h3 ▸ h1, h3 ▸ h4, h5⟩
      · rintro ⟨h1, h2, h3, h4⟩
        exact ⟨s.Name, ⟨h2, h1, hL s h1⟩, h3, h4⟩

/-- C1. With `useAllSources = true` and `useSourcesSupportingRecurse = false`, for a
registry of pairwise different lower-case names, the agent holds exactly the registered
sources whose name is not in the exclude list, each once, and the include list has no
influence on the agent. -/
theorem New_useAllSources (AllSources : List Source) (hU : UniqueNames AllSources)
    (hL : LowerNames AllSources) (sourceNames excludedSourceNames : List String) :
    (∀ s, s ∈ (New AllSources sourceNames excludedSourceNames true false).sources ↔
        s ∈ AllSources ∧ s.Name ∉ excludedSourceNames) ∧
      (New AllSources sourceNames excludedSourceNames true false).sources.Nodup ∧
      ∀ otherNames, New AllSources otherNames excludedSourceNames true false =
        New AllSources sourceNames excludedSourceNames true false := by
  refine ⟨fun s => ?_, ?_, fun _ => rfl⟩
  · rw [mem_New_of_lower AllSources hU hL]
    simp
  · have hK := lowerKeys_nodup AllSources hU hL
    unfold New
    simp only [New.recurse, Bool.false_eq_true, if_false]
    refine Values_nodup _ (New_WF _ _ _ _) (fun s => strings.ToLower s.Name) ?_
    intro e he
    rw [mem_exclude, mem_start_all _ _ hK] at he
    exact he.1.2

theorem New_useAllSources_witness :
    UniqueNames sampleSources ∧ LowerNames sampleSources ∧
      ((⟨"github", false, false, true⟩ : Source) ∈
          (New sampleSources ["crtsh"] ["crtsh", "nosuchsource"] true false).sources ↔
        (⟨"github", false, false, true⟩ : Source) ∈ sampleSources ∧
          "github" ∉ ["crtsh", "nosuchsource"]) ∧
      (New sampleSources ["crtsh"] ["crtsh", "nosuchsource"] true false).sources.Nodup ∧
      New sampleSources [] ["crtsh", "nosuchsource"] true false =
        New sampleSources ["crtsh"] ["crtsh", "nosuchsource"] true false :=
  ⟨by decide, by decide,
    (New_useAllSources sampleSources (by decide) (by decide) ["crtsh"]
      ["crtsh", "nosuchsource"]).1 ⟨"github", false, false, true⟩,
    (New_useAllSources sampleSources (by decide) (by decide) ["crtsh"]
      ["crtsh", "nosuchsource"]).2.1,
    (New_useAllSources sampleSources (by decide) (by decide) ["crtsh"]
      ["crtsh", "nosuchsource"]).2.2 []⟩

/-- C2. With an empty include list, `useAllSources = false` and
`useSourcesSupportingRecurse = false`, for a registry of pairwise different names, the
agent holds exactly the registered sources with `IsDefault` whose name is not in the
exclude list, each once. -/
theorem New_default_sources (AllSources : List Source) (hU : UniqueNames AllSources)
    (excludedSourceNames : List String) :
    (∀ s, s ∈ (New AllSources [] excludedSourceNames false false).sources ↔
        s ∈ AllSources ∧ s.IsDefault = true ∧ s.Name ∉ excludedSourceNames) ∧
      (New AllSources [] excludedSourceNames false false).sources.Nodup := by
  refine ⟨fun s => ?_, ?_⟩
  · rw [mem_New]
    simp only [mem_start_default _ hU, Bool.false_eq_true, false_implies, and_true]
    constructor
    · rintro ⟨k, ⟨h1, h2, h3⟩, h4⟩
      exact ⟨h1, h2, h3 ▸ h4⟩
    · rintro ⟨h1, h2, h3⟩
      exact ⟨s.Name, ⟨h1, h2, rfl⟩, h3⟩
  · unfold New
    simp only [New.recurse, Bool.false_eq_true, if_false]
    refine Values_nodup _ (New_WF _ _ _ _) (fun s => s.Name) ?_
    intro e he
    rw [mem_exclude, mem_start_default _ hU] at he
    exact he.1.2.2

theorem New_default_sources_witness :
    UniqueNames sampleSources ∧
      ((⟨"github", false, false, true⟩ : Source) ∈
          (New sampleSources [] ["crtsh"] false false).sources ↔
        (⟨"github", false, false, true⟩ : Source) ∈ sampleSources ∧
          (⟨"github", false, false, true⟩ : Source).IsDefault = true ∧
          "github" ∉ ["crtsh"]) ∧
      (New sampleSources [] ["crtsh"] false false).sources.Nodup :=
  ⟨by decide,
    (New_default_sources sampleSources (by decide) ["crtsh"]).1 ⟨"github", false, false, true⟩,
    (New_default_sources sampleSources (by decide) ["crtsh"]).2⟩

/-- C3. With a non-empty include list, `useAllSources = false`, an empty exclude list and
`useSourcesSupportingRecurse = false`, for a registry of pairwise different lower-case
names, the agent holds exactly the registered sources whose name is in the include list,
each once: a name that is not registered selects nothing, a repeated name selects its
source once, and no source outside the list is selected. -/
theorem New_include_sources (AllSources : List Source) (hU : UniqueNames AllSources)
    (hL : LowerNames AllSources) (sourceNames : List String) (hne : sourceNames ≠ []) :
    (∀ s, s ∈ (New AllSources sourceNames [] false false).sources ↔
        s ∈ AllSources ∧ s.Name ∈ sourceNames) ∧
      (New AllSources sourceNames [] false false).sources.Nodup := by
  refine ⟨fun s => ?_, ?_⟩
  · rw [mem_New_of_lower AllSources hU hL]
    simp [hne]
  · have hK := lowerKeys_nodup AllSources hU hL
    unfold New
    simp only [New.recurse, Bool.false_eq_true, if_false]
    refine Values_nodup _ (New_WF _ _ _ _) (fun s => strings.ToLower s.Name) ?_
    intro e he
    rw [mem_exclude, mem_start_include _ _ hne hK] at he
    exact he.1.2.2

theorem New_include_sources_witness :
    UniqueNames sampleSources ∧ LowerNames sampleSources ∧
      ["github", "nosuchsource", "github"] ≠ [] ∧
      ((⟨"github", false, false, true⟩ : Source) ∈
          (New sampleSources ["github", "nosuchsource", "github"] [] false false).sources ↔
        (⟨"github", false, false, true⟩ : Source) ∈ sampleSources ∧
          "github" ∈ ["github", "nosuchsource", "github"]) ∧
      (New sampleSources ["github", "nosuchsource", "github"] [] false false).sources.Nodup :=
  ⟨by decide, by decide, by decide,
    (New_include_sources sampleSources (by decide) (by decide)
      ["github", "nosuchsource", "github"] (by decide)).1 ⟨"github", false, false, true⟩,
    (New_include_sources sampleSources (by decide) (by decide)
      ["github", "nosuchsource", "github"] (by decide)).2⟩

/-- C5. With `useSourcesSupportingRecurse = true` the agent holds exactly those sources
of the agent built from the same arguments with `useSourcesSupportingRecurse = false`
that have recursive support. -/
theorem New_recurse_sources (AllSources : List Source)
    (sourceNames excludedSourceNames : List String) (useAllSources : Bool) (s : Source) :
    s ∈ (New AllSources sourceNames excludedSourceNames useAllSources true).sources ↔
      s ∈ (New AllSources sourceNames excludedSourceNames useAllSources false).sources ∧
        s.HasRecursiveSupport = true := by
  rw [mem_New, mem_New]
  simp only [true_implies, Bool.false_eq_true, false_implies, and_true]
  constructor
  · rintro ⟨k, h1, h2, h3⟩
    exact ⟨⟨k, h1, h2⟩, h3⟩
  · rintro ⟨⟨k, h1, h2⟩, h3⟩
    exact ⟨k, h1, h2, h3⟩

end passive

namespace passive

open subscraping

/-- C4, as amended. The names of the include list and of the exclude list are compared
character by character with the registered names, which `init` lower-cases; `New` folds
no case. For a registry of pairwise different lower-case names the agent holds exactly
the registered sources selected by the flags and the literal entries of the two lists,
and a string with an upper-case letter is no key of `NameSourceMap` and no registered
name. -/
theorem New_matches_names_exactly (AllSources : List Source) (hU : UniqueNames AllSources)
    (hL : LowerNames AllSources) (sourceNames excludedSourceNames : List String)
    (useAllSources useSourcesSupportingRecurse : Bool) :
    (∀ s, s ∈ (New AllSources sourceNames excludedSourceNames useAllSources
          useSourcesSupportingRecurse).sources ↔
        s ∈ AllSources ∧
          (useAllSources = true ∨ (sourceNames ≠ [] ∧ s.Name ∈ sourceNames) ∨
            (sourceNames = [] ∧ s.IsDefault = true)) ∧
          s.Name ∉ excludedSourceNames ∧
          (useSourcesSupportingRecurse = true → s.HasRecursiveSupport = true)) ∧
      ∀ x, strings.ToLower x ≠ x →
        SourceMap.get (init AllSources) x = none ∧ ∀ s ∈ AllSources, s.Name ≠ x := by
  refine ⟨fun s => mem_New_of_lower AllSources hU hL _ _ _ _ s, fun x hx => ⟨?_, ?_⟩⟩
  · rw [SourceMap.get_eq_none]
    intro e he hk
    rw [mem_init _ (lowerKeys_nodup AllSources hU hL)] at he
    rw [hL _ he.1] at he
    exact hx (by rw [← hk, ← he.2, hL _ he.1])
  · intro s hs hk
    exact hx (by rw [← hk, hL s hs])

theorem New_matches_names_exactly_witness :
    UniqueNames sampleSources ∧ LowerNames sampleSources ∧
      strings.ToLower "FOFA" ≠ "FOFA" ∧
      SourceMap.get (init sampleSources) "FOFA" = none :=
  ⟨by decide, by decide, by decide,
    ((New_matches_names_exactly sampleSources (by decide) (by decide) ["FOFA"] [] false
      false).2 "FOFA" (by decide)).1⟩

/-- C4, as stated, fails: `"FOFA"` and `"fofa"` differ in letter case only, yet the
include list `["fofa"]` selects the fofa source and `["FOFA"]` selects nothing, and the
exclude list `["fofa"]` removes the fofa source and `["FOFA"]` leaves it in. -/
theorem New_letter_case_changes_sources :
    strings.ToLower "FOFA" = strings.ToLower "fofa" ∧
      (New sampleSources ["fofa"] [] false false).sources =
        [fofa.Source.entry { apiKeys := [], errors := 0, results := 0, skipped := false }] ∧
      (New sampleSources ["FOFA"] [] false false).sources = [] ∧
      (fofa.Source.entry { apiKeys := [], errors := 0, results := 0, skipped := false } ∉
        (New sampleSources [] ["fofa"] true false).sources) ∧
      (fofa.Source.entry { apiKeys := [], errors := 0, results := 0, skipped := false } ∈
        (New sampleSources [] ["FOFA"] true false).sources) := by
  decide

end passive

/-! ## The fofa source: `Run` returns -/

namespace fofa

open subscraping

theorem maxPages_eq : maxPages = 9223372036854776 := by decide

/-- The loop ends: `pages` never exceeds `maxPages`, and `currentPage` grows by one with
every test of the condition. -/
theorem pageLoop_returns (session : Session) (randomApiKey : apiKey) (domain : String) :
    ∀ (fuel : Nat) (currentPage pages : Int) (t : Trace), pages ≤ (maxPages : Int) →
      (maxPages : Int) + 1 ≤ currentPage + (fuel : Int) →
      ∃ out, pageLoop session randomApiKey domain (fuel + 1) currentPage pages t = some out := by
  intro fuel
  induction fuel with
  | zero =>
    intro currentPage pages t hp hf
    have : ¬ currentPage ≤ pages := by
      simp only [Nat.cast_zero, add_zero] at hf
      omega
    exact ⟨t, by simp [pageLoop, this]⟩
  | succ fuel ih =>
    intro currentPage pages t hp hf
    rw [pageLoop]
    by_cases hc : currentPage ≤ pages
    · simp only [hc, if_true]
      cases hs : session.SimpleGet (request randomApiKey domain currentPage) with
      | noResponse err => exact ⟨_, rfl⟩
      | undecodable err => exact ⟨_, rfl⟩
      | decoded response =>
        by_cases he : response.Error = true
        · simp only [he, if_true]
          exact ⟨_, rfl⟩
        · simp only [he, if_false]
          have hf' : (maxPages : Int) + 1 ≤ currentPage + 1 + (fuel : Int) := by
            push_cast at hf
            omega
          by_cases hz : response.Size > 0
          · simp only [hz, if_true]
            refine ih _ _ _ ?_ hf'
            have hmax := response.Size_int.2
            rw [Int.tdiv_eq_ediv (le_of_lt hz) (by decide)]
            simp only [maxInt, pageSize, maxPages_eq] at *
            omega
          · simp only [hz, if_false]
            exact ih _ _ _ hp hf'
    · exact ⟨t, by simp [hc]⟩

/-- `Run` returns: the channel is closed after finitely many page fetches. -/
theorem Run_returns (s : Source) (rnd : Nat) (domain : String) (session : Session) :
    ∃ out, s.Run rnd domain session = some out := by
  unfold Source.Run
  dsimp only
  split
  · exact ⟨_, rfl⟩
  · refine pageLoop_returns _ _ _ _ _ _ _ ?_ ?_
    · simp [maxPages_eq]
    · omega

end fofa

/-! ## The fofa source: counters -/

namespace fofa

open subscraping

theorem Trace.fail_results (t : Trace) (err : String) :
    (t.fail err).results = t.results ++ [errorResult err] := rfl

theorem Trace.fail_requests (t : Trace) (err : String) :
    (t.fail err).requests = t.requests := rfl

theorem Trace.emit_results (t : Trace) (hosts : List String) :
    (t.emit hosts).results = t.results ++ hosts.map subdomainResult := by
  unfold Trace.emit
  induction hosts generalizing t with
  | nil => simp
  | cons h hosts ih =>
    rw [List.foldl_cons, ih]
    simp [Trace.send, subdomainResult, Source.Name]

theorem Trace.emit_requests (t : Trace) (hosts : List String) :
    (t.emit hosts).requests = t.requests := by
  unfold Trace.emit
  induction hosts generalizing t with
  | nil => rfl
  | cons h hosts ih =>
    rw [List.foldl_cons, ih]
    rfl

theorem Trace.Counted.fail {t : Trace} (h : t.Counted) (err : String) :
    (t.fail err).Counted := by
  obtain ⟨h1, h2⟩ := h
  constructor
  · show t.source.results = _
    rw [Trace.fail_results, h1]
    simp [countSubdomains, List.countP_append, errorResult]
  · show t.source.errors + 1 = _
    rw [Trace.fail_results, h2]
    simp [countErrors, List.countP_append, errorResult]

theorem Trace.Counted.emit {t : Trace} (h : t.Counted) (hosts : List String) :
    (t.emit hosts).Counted := by
  unfold Trace.emit
  induction hosts generalizing t with
  | nil => exact h
  | cons a hosts ih =>
    rw [List.foldl_cons]
    apply ih
    obtain ⟨h1, h2⟩ := h
    constructor
    · show t.source.results + 1 = _
      rw [h1]
      simp [Trace.send, countSubdomains, List.countP_append]
    · show t.source.errors = _
      rw [h2]
      simp [Trace.send, countErrors, List.countP_append]

/-- The loop keeps the counters in step with the results. -/
theorem pageLoop_Counted (session : Session) (randomApiKey : apiKey) (domain : String) :
    ∀ (fuel : Nat) (currentPage pages : Int) (t out : Trace), t.Counted →
      pageLoop session randomApiKey domain fuel currentPage pages t = some out →
      out.Counted := by
  intro fuel
  induction fuel with
  | zero =>
    intro currentPage pages t out _ h
    simp [pageLoop] at h
  | succ fuel ih =>
    intro currentPage pages t out hc h
    rw [pageLoop] at h
    by_cases hle : currentPage ≤ pages
    · simp only [hle, if_true] at h
      have hc' : Trace.Counted { t with requests := t.requests ++
          [request randomApiKey domain currentPage] } := hc
      cases hs : session.SimpleGet (request randomApiKey domain currentPage) with
      | noResponse err =>
        rw [hs] at h
        simp only [Option.some.injEq] at h
        exact h ▸ hc'.fail err
      | undecodable err =>
        rw [hs] at h
        simp only [Option.some.injEq] at h
        exact h ▸ hc'.fail err
      | decoded response =>
        rw [hs] at h
        by_cases he : response.Error = true
        · simp only [he, if_true, Option.some.injEq] at h
          exact h ▸ hc'.fail _
        · simp only [he, if_false] at h
          by_cases hz : response.Size > 0
          · simp only [hz, if_true] at h
            exact ih _ _ _ _ (hc'.emit _) h
          · simp only [hz, if_false] at h
            exact ih _ _ _ _ hc' h
    · simp only [hle, if_false, Option.some.injEq] at h
      exact h ▸ hc

/-- C7. Whatever the statistics before the call, the credentials and the outcomes of the
page fetches, `Run` returns, and once the channel is closed `Statistics().Results` is
the number of Subdomain results sent during the call and `Statistics().Errors` the
number of Error results sent during the call. -/
theorem Run_statistics_count_results (s : Source) (rnd : Nat) (domain : String)
    (session : Session) :
    ∃ out, s.Run rnd domain session = some out ∧
      out.source.Statistics.Results = (countSubdomains out.results : Int) ∧
      out.source.Statistics.Errors = (countErrors out.results : Int) := by
  obtain ⟨out, hout⟩ := Run_returns s rnd domain session
  refine ⟨out, hout, ?_⟩
  unfold Source.Run at hout
  dsimp only at hout
  split at hout
  · simp only [Option.some.injEq] at hout
    subst hout
    simp [Source.Statistics, countSubdomains, countErrors]
  · refine pageLoop_Counted _ _ _ _ _ _ _ _ ?_ hout
    simp [Trace.Counted, countSubdomains, countErrors]

/-- C6. With an empty credential set, whatever the domain and the session, `Run` issues
no page fetch and sends no result before it closes the channel, and afterwards the
statistics are `Skipped = true`, `Errors = 0` and `Results = 0`. The fofa source needs a
key. -/
theorem Run_without_keys_skips (s : Source) (rnd : Nat) (domain : String)
    (session : Session) (hkeys : s.apiKeys = []) :
    s.NeedsKey = true ∧
      ∃ out, s.Run rnd domain session = some out ∧ out.requests = [] ∧ out.results = [] ∧
        out.source.Statistics = { Errors := 0, Results := 0, Skipped := true } := by
  refine ⟨rfl, ?_⟩
  unfold Source.Run
  simp [hkeys, PickRandom, Source.Statistics]

theorem Run_without_keys_skips_witness :
    (Source.mk [] 3 40 false).NeedsKey = true ∧
      ∃ out, (Source.mk [] 3 40 false).Run 5 "example.com"
          (fullSession 1 (by decide) (fun _ => ["www.example.com"])) = some out ∧
        out.requests = [] ∧ out.results = [] ∧
        out.source.Statistics = { Errors := 0, Results := 0, Skipped := true } :=
  Run_without_keys_skips (Source.mk [] 3 40 false) 5 "example.com"
    (fullSession 1 (by decide) (fun _ => ["www.example.com"])) rfl

end fofa

/-! ## The fofa source: the results and the page fetches of a run -/

namespace fofa

open subscraping

theorem resultsOf_append (fs gs : List Fetch) :
    resultsOf (fs ++ gs) = resultsOf fs ++ resultsOf gs := by
  induction fs with
  | nil => rfl
  | cons f fs ih => simp [resultsOf, ih]

/-- A result of a page that did not fail is the Subdomain result of a host of its
payload. -/
theorem Fetch.results_of_ok {f : Fetch} (hf : f.failure = none) {r : Result}
    (hr : r ∈ f.results) :
    ∃ response host, f = .decoded response ∧ host ∈ response.Results ∧
      r = subdomainResult host := by
  cases f with
  | noResponse err => simp [Fetch.failure] at hf
  | undecodable err => simp [Fetch.failure] at hf
  | decoded response =>
    simp only [Fetch.results, hf] at hr
    split at hr
    · obtain ⟨host, hh, rfl⟩ := List.mem_map.mp hr
      exact ⟨response, host, rfl, hh, rfl⟩
    · simp at hr

/-- A failing page accounts for its Error result alone. -/
theorem Fetch.results_of_failure {f : Fetch} {err : String} (hf : f.failure = some err) :
    f.results = [errorResult err] := by
  cases f <;> simp [Fetch.results, hf]

theorem mem_resultsOf {fs : List Fetch} {r : Result} (hr : r ∈ resultsOf fs) :
    ∃ f ∈ fs, r ∈ f.results := by
  induction fs with
  | nil => simp [resultsOf] at hr
  | cons f fs ih =>
    simp only [resultsOf, List.mem_append] at hr
    rcases hr with h | h
    · exact ⟨f, List.mem_cons_self _ _, h⟩
    · obtain ⟨g, hg, hr⟩ := ih h
      exact ⟨g, List.mem_cons_of_mem _ hg, hr⟩

/-- The results of pages that did not fail are Subdomain results. -/
theorem resultsOf_ok {fs : List Fetch} (hfs : ∀ f ∈ fs, f.failure = none) :
    ∀ r ∈ resultsOf fs, r.Type_ = .Subdomain := by
  intro r hr
  obtain ⟨f, hf, hr⟩ := mem_resultsOf hr
  obtain ⟨_, host, _, _, rfl⟩ := Fetch.results_of_ok (hfs f hf) hr
  rfl

theorem mem_dropLast_cons {α : Type} {x f : α} {fs : List α}
    (h : x ∈ (f :: fs).dropLast) : x = f ∨ x ∈ fs.dropLast := by
  cases fs with
  | nil => simp at h
  | cons g gs =>
    rw [List.dropLast_cons₂] at h
    exact List.mem_cons.mp h

/-- The loop, read as a trace: it fetches consecutive pages from `currentPage` on, no
page but the last one fetched has failed, and the results sent are those the fetched
pages account for, in the order of the pages. -/
theorem pageLoop_trace (session : Session) (randomApiKey : apiKey) (domain : String) :
    ∀ (fuel : Nat) (currentPage pages : Int) (t out : Trace),
      pageLoop session randomApiKey domain fuel currentPage pages t = some out →
      ∃ n : Nat,
        out.requests = t.requests ++
          (pagesFrom currentPage n).map (request randomApiKey domain) ∧
        out.results = t.results ++ resultsOf ((pagesFrom currentPage n).map
          (fun p => session.SimpleGet (request randomApiKey domain p))) ∧
        (∀ f ∈ ((pagesFrom currentPage n).map
          (fun p => session.SimpleGet (request randomApiKey domain p))).dropLast,
          f.failure = none) ∧
        (currentPage ≤ pages → n ≠ 0) ∧
        ((∀ f ∈ (pagesFrom currentPage n).map
            (fun p => session.SimpleGet (request randomApiKey domain p)),
            f.failure = none) →
          ((pagesFrom currentPage n).map
            (fun p => session.SimpleGet (request randomApiKey domain p))).foldl
              nextPages pages < currentPage + (n : Int)) := by
  intro fuel
  induction fuel with
  | zero =>
    intro currentPage pages t out h
    simp [pageLoop] at h
  | succ fuel ih =>
    intro currentPage pages t out h
    rw [pageLoop] at h
    by_cases hle : currentPage ≤ pages
    · simp only [hle, if_true] at h
      cases hs : session.SimpleGet (request randomApiKey domain currentPage) with
      | noResponse err =>
        rw [hs] at h
        simp only [Option.some.injEq] at h
        subst h
        refine ⟨1, ?_, ?_, ?_, fun _ => one_ne_zero, ?_⟩
        · simp [pagesFrom, Trace.fail_requests]
        · simp [pagesFrom, Trace.fail_results, resultsOf, hs, Fetch.results, Fetch.failure]
        · simp [pagesFrom]
        · intro hall
          have := hall _ (List.mem_map_of_mem _ (List.mem_cons_self _ _))
          rw [hs] at this
          simp [Fetch.failure] at this
      | undecodable err =>
        rw [hs] at h
        simp only [Option.some.injEq] at h
        subst h
        refine ⟨1, ?_, ?_, ?_, fun _ => one_ne_zero, ?_⟩
        · simp [pagesFrom, Trace.fail_requests]
        · simp [pagesFrom, Trace.fail_results, resultsOf, hs, Fetch.results, Fetch.failure]
        · simp [pagesFrom]
        · intro hall
          have := hall _ (List.mem_map_of_mem _ (List.mem_cons_self _ _))
          rw [hs] at this
          simp [Fetch.failure] at this
      | decoded response =>
        rw [hs] at h
        by_cases he : response.Error = true
        · simp only [he, if_true, Option.some.injEq] at h
          subst h
          refine ⟨1, ?_, ?_, ?_, fun _ => one_ne_zero, ?_⟩
          · simp [pagesFrom, Trace.fail_requests]
          · simp [pagesFrom, Trace.fail_results, resultsOf, hs, Fetch.results, Fetch.failure,
              he]
          · simp [pagesFrom]
          · intro hall
            have := hall _ (List.mem_map_of_mem _ (List.mem_cons_self _ _))
            rw [hs] at this
            simp [Fetch.failure, he] at this
        · simp only [he, if_false] at h
          have hok : (Fetch.decoded response).failure = none := by
            simp [Fetch.failure, he]
          by_cases hz : response.Size > 0
          · simp only [hz, if_true] at h
            obtain ⟨n, h1, h2, h3, -, h5⟩ := ih _ _ _ _ h
            refine ⟨n + 1, ?_, ?_, ?_, fun _ => Nat.succ_ne_zero n, ?_⟩
            · rw [h1, Trace.emit_requests]
              simp [pagesFrom]
            · rw [h2, Trace.emit_results]
              simp [pagesFrom, resultsOf, hs, Fetch.results, Fetch.failure, he, hz]
            · intro f hf
              simp only [pagesFrom, List.map_cons, hs] at hf
              rcases mem_dropLast_cons hf with rfl | hf
              · exact hok
              · exact h3 f hf
            · intro hall
              have hrest := h5 (fun f hf => hall f (by
                simp only [pagesFrom, List.map_cons]
                exact List.mem_cons_of_mem _ hf))
              simp only [pagesFrom, List.map_cons, List.foldl_cons, hs, nextPages, he,
                Bool.false_eq_true, if_false, hz, if_true]
              push_cast
              omega
          · simp only [hz, if_false] at h
            obtain ⟨n, h1, h2, h3, -, h5⟩ := ih _ _ _ _ h
            refine ⟨n + 1, ?_, ?_, ?_, fun _ => Nat.succ_ne_zero n, ?_⟩
            · rw [h1]
              simp [pagesFrom]
            · rw [h2]
              simp [pagesFrom, resultsOf, hs, Fetch.results, Fetch.failure, he, hz]
            · intro f hf
              simp only [pagesFrom, List.map_cons, hs] at hf
              rcases mem_dropLast_cons hf with rfl | hf
              · exact hok
              · exact h3 f hf
            · intro hall
              have hrest := h5 (fun f hf => hall f (by
                simp only [pagesFrom, List.map_cons]
                exact List.mem_cons_of_mem _ hf))
              simp only [pagesFrom, List.map_cons, List.foldl_cons, hs, nextPages, he,
                Bool.false_eq_true, if_false, hz]
              push_cast
              omega
    · simp only [hle, if_false, Option.some.injEq] at h
      subst h
      refine ⟨0, by simp [pagesFrom], by simp [pagesFrom, resultsOf], by simp [pagesFrom],
        fun h => absurd h hle, fun _ => ?_⟩
      simp only [pagesFrom, List.map_nil, List.foldl_nil, Nat.cast_zero, add_zero]
      omega

/-- A run, read as a trace: the pages `1, 2, …` are fetched in this order with the
credential drawn, no page but the last one fetched has failed, and the results sent are
those the fetched pages account for, in the order of the pages. -/
theorem Run_trace (s : Source) (rnd : Nat) (domain : String) (session : Session)
    (out : Trace) (h : s.Run rnd domain session = some out) :
    (∃ n : Nat, out.requests = (pagesFrom 1 n).map
        (request (PickRandom { username := "", secret := "" } s.apiKeys rnd) domain)) ∧
      out.results = resultsOf (out.requests.map session.SimpleGet) ∧
      ∀ f ∈ (out.requests.map session.SimpleGet).dropLast, f.failure = none := by
  unfold Source.Run at h
  dsimp only at h
  split at h
  · simp only [Option.some.injEq] at h
    subst h
    exact ⟨⟨0, rfl⟩, rfl, by simp⟩
  · obtain ⟨n, h1, h2, h3, -, -⟩ := pageLoop_trace _ _ _ _ _ _ _ _ h
    simp only [List.nil_append] at h1 h2
    refine ⟨⟨n, h1⟩, ?_, ?_⟩
    · rw [h2, h1, List.map_map]
      rfl
    · rw [h1, List.map_map]
      exact h3

end fofa

/-! ## The fofa source: a run goes on until a page fails or the pages are exhausted -/

namespace fofa

open subscraping

/-- The counters agree with the results once `Run` has returned. -/
theorem Run_Counted (s : Source) (rnd : Nat) (domain : String) (session : Session)
    (out : Trace) (h : s.Run rnd domain session = some out) : out.Counted := by
  unfold Source.Run at h
  dsimp only at h
  split at h
  · simp only [Option.some.injEq] at h
    subst h
    simp [Trace.Counted, countSubdomains, countErrors]
  · refine pageLoop_Counted _ _ _ _ _ _ _ _ ?_ h
    simp [Trace.Counted, countSubdomains, countErrors]

/-- With a usable credential page 1 is fetched, and a run none of whose pages has failed
has gone on until the page counter exceeded the page count. -/
theorem Run_progress (s : Source) (rnd : Nat) (domain : String) (session : Session)
    (out : Trace) (h : s.Run rnd domain session = some out)
    (hkey : (PickRandom { username := "", secret := "" } s.apiKeys rnd).username ≠ "" ∧
      (PickRandom { username := "", secret := "" } s.apiKeys rnd).secret ≠ "") :
    out.requests ≠ [] ∧
      ((∀ req ∈ out.requests, (session.SimpleGet req).failure = none) →
        pagesAfter (out.requests.map session.SimpleGet) < (out.requests.length : Int) + 1) := by
  unfold Source.Run at h
  simp only [hkey.1, hkey.2, decide_False, Bool.or_self, Bool.false_eq_true, if_false] at h
  obtain ⟨n, h1, -, -, h4, h5⟩ := pageLoop_trace _ _ _ _ _ _ _ _ h
  simp only [List.nil_append] at h1
  have hn := h4 (le_refl 1)
  refine ⟨?_, ?_⟩
  · rw [h1]
    cases n with
    | zero => exact absurd rfl hn
    | succ n => simp [pagesFrom]
  · intro hall
    have hlen : out.requests.length = n := by
      rw [h1, List.length_map]
      clear h h1 h4 h5 hn hall
      generalize (1 : Int) = first
      induction n generalizing first with
      | zero => rfl
      | succ n ih => simp [pagesFrom, ih]
    have := h5 (by
      intro f hf
      obtain ⟨p, hp, rfl⟩ := List.mem_map.mp hf
      exact hall _ (by rw [h1]; exact List.mem_map_of_mem _ hp))
    rw [hlen, h1, List.map_map]
    unfold pagesAfter
    have e : (session.SimpleGet ∘ request
        (PickRandom { username := "", secret := "" } s.apiKeys rnd) domain) =
        (fun p => session.SimpleGet (request
          (PickRandom { username := "", secret := "" } s.apiKeys rnd) domain p)) := rfl
    rw [e]
    omega

/-- When the pages from `currentPage` on do not fail and stay within the page count up to
a page that fails, the loop fetches the pages up to that one and sends the results of
the pages before it followed by its Error result. -/
theorem pageLoop_reaches_failure (session : Session) (randomApiKey : apiKey)
    (domain : String) (err : String) :
    ∀ (k fuel : Nat) (currentPage pages : Int) (t out : Trace),
      pageLoop session randomApiKey domain fuel currentPage pages t = some out →
      currentPage ≤ pages →
      (∀ j : Nat, j < k →
        (fetchPage session randomApiKey domain (currentPage + (j : Int))).failure = none ∧
          currentPage + (j : Int) + 1 ≤
            ((pagesFrom currentPage (j + 1)).map
              (fetchPage session randomApiKey domain)).foldl nextPages pages) →
      (fetchPage session randomApiKey domain (currentPage + (k : Int))).failure = some err →
      out.requests = t.requests ++
          (pagesFrom currentPage (k + 1)).map (request randomApiKey domain) ∧
        out.results = t.results ++
          resultsOf ((pagesFrom currentPage k).map (fetchPage session randomApiKey domain)) ++
          [errorResult err] := by
  intro k
  induction k with
  | zero =>
    intro fuel currentPage pages t out h hle _ hfail
    simp only [Nat.cast_zero, add_zero, fetchPage] at hfail
    cases fuel with
    | zero => simp [pageLoop] at h
    | succ fuel =>
      rw [pageLoop] at h
      simp only [hle, if_true] at h
      cases hs : session.SimpleGet (request randomApiKey domain currentPage) with
      | noResponse e =>
        rw [hs] at h hfail
        simp only [Fetch.failure, Option.some.injEq] at hfail
        simp only [Option.some.injEq] at h
        subst h hfail
        simp [pagesFrom, Trace.fail_requests, Trace.fail_results, resultsOf]
      | undecodable e =>
        rw [hs] at h hfail
        simp only [Fetch.failure, Option.some.injEq] at hfail
        simp only [Option.some.injEq] at h
        subst h hfail
        simp [pagesFrom, Trace.fail_requests, Trace.fail_results, resultsOf]
      | decoded response =>
        rw [hs] at h hfail
        by_cases he : response.Error = true
        · simp only [Fetch.failure, he, if_true, Option.some.injEq] at hfail
          simp only [he, if_true, Option.some.injEq] at h
          subst h hfail
          simp [pagesFrom, Trace.fail_requests, Trace.fail_results, resultsOf]
        · simp [Fetch.failure, he] at hfail
  | succ k ih =>
    intro fuel currentPage pages t out h hle hgood hfail
    obtain ⟨hok, hnext⟩ := hgood 0 (Nat.succ_pos k)
    simp only [Nat.cast_zero, add_zero, fetchPage] at hok
    simp only [Nat.cast_zero, add_zero, zero_add, pagesFrom, List.map_cons, List.map_nil,
      List.foldl_cons, List.foldl_nil, fetchPage] at hnext
    have hshift : ∀ j : Nat, currentPage + ((j + 1 : Nat) : Int) = currentPage + 1 + (j : Int) := by
      intro j
      push_cast
      ring
    have hgood' : ∀ j : Nat, j < k →
        (fetchPage session randomApiKey domain (currentPage + 1 + (j : Int))).failure = none ∧
          currentPage + 1 + (j : Int) + 1 ≤
            ((pagesFrom (currentPage + 1) (j + 1)).map
              (fetchPage session randomApiKey domain)).foldl nextPages
              (nextPages pages (session.SimpleGet (request randomApiKey domain currentPage))) := by
      intro j hj
      obtain ⟨h1, h2⟩ := hgood (j + 1) (Nat.succ_lt_succ hj)
      rw [hshift] at h1 h2
      refine ⟨h1, ?_⟩
      rw [pagesFrom, List.map_cons, List.foldl_cons] at h2
      exact h2
    have hfail' : (fetchPage session randomApiKey domain (currentPage + 1 + (k : Int))).failure =
        some err := by
      rw [← hshift]
      exact hfail
    cases fuel with
    | zero => simp [pageLoop] at h
    | succ fuel =>
      rw [pageLoop] at h
      simp only [hle, if_true] at h
      cases hs : session.SimpleGet (request randomApiKey domain currentPage) with
      | noResponse e => rw [hs] at hok; simp [Fetch.failure] at hok
      | undecodable e => rw [hs] at hok; simp [Fetch.failure] at hok
      | decoded response =>
        rw [hs] at h hok hnext hgood'
        have he : ¬ response.Error = true := by
          intro he
          simp [Fetch.failure, he] at hok
        simp only [he, if_false] at h
        by_cases hz : response.Size > 0
        · simp only [hz, if_true] at h
          simp only [nextPages, he, Bool.false_eq_true, if_false, hz, if_true] at hnext hgood'
          obtain ⟨h1, h2⟩ := ih _ _ _ _ _ h hnext hgood' hfail'
          rw [h1, h2, Trace.emit_results, Trace.emit_requests]
          simp [pagesFrom, resultsOf, fetchPage, hs, Fetch.results, Fetch.failure, he, hz]
        · simp only [hz, if_false] at h
          simp only [nextPages, he, Bool.false_eq_true, if_false, hz] at hnext hgood'
          obtain ⟨h1, h2⟩ := ih _ _ _ _ _ h hnext hgood' hfail'
          rw [h1, h2]
          simp [pagesFrom, resultsOf, fetchPage, hs, Fetch.results, Fetch.failure, he, hz]

end fofa

/-! ## The fofa source: a failing page ends the run -/

namespace fofa

open subscraping

theorem countErrors_eq_zero {rs : List Result} (h : ∀ r ∈ rs, r.Type_ = .Subdomain) :
    countErrors rs = 0 := by
  unfold countErrors
  rw [List.countP_eq_zero]
  intro r hr
  simp [h r hr]

theorem mem_dropLast_append_cons {α : Type} (pre : List α) (x : α) {post : List α}
    (hpost : post ≠ []) : x ∈ (pre ++ x :: post).dropLast := by
  induction pre with
  | nil =>
    cases post with
    | nil => exact absurd rfl hpost
    | cons y ys => simp [List.dropLast_cons₂]
  | cons a pre ih =>
    rw [List.cons_append, List.dropLast_cons_of_ne_nil (by simp)]
    exact List.mem_cons_of_mem _ ih

/-- When no fetch but the last one has failed, the results hold at most one Error
result, and nothing but Subdomain results before their last element. -/
theorem resultsOf_shape (fs : List Fetch) (hgood : ∀ f ∈ fs.dropLast, f.failure = none) :
    countErrors (resultsOf fs) ≤ 1 ∧ ∀ r ∈ (resultsOf fs).dropLast, r.Type_ = .Subdomain := by
  by_cases hnil : fs = []
  · subst hnil
    simp [resultsOf, countErrors]
  · have hsplit := List.dropLast_append_getLast hnil
    have hA := resultsOf_ok hgood
    rw [← hsplit, resultsOf_append]
    have hlast : resultsOf [fs.getLast hnil] = (fs.getLast hnil).results := by
      simp [resultsOf]
    rw [hlast]
    cases hf : (fs.getLast hnil).failure with
    | none =>
      have hB : ∀ r ∈ (fs.getLast hnil).results, r.Type_ = .Subdomain := by
        intro r hr
        obtain ⟨_, host, _, _, rfl⟩ := Fetch.results_of_ok hf hr
        rfl
      have hall : ∀ r ∈ resultsOf fs.dropLast ++ (fs.getLast hnil).results,
          r.Type_ = .Subdomain := by
        intro r hr
        rcases List.mem_append.mp hr with h | h
        · exact hA r h
        · exact hB r h
      refine ⟨?_, fun r hr => hall r (List.mem_of_mem_dropLast hr)⟩
      rw [countErrors_eq_zero hall]
      exact Nat.zero_le 1
    | some err =>
      rw [Fetch.results_of_failure hf]
      refine ⟨?_, ?_⟩
      · have := countErrors_eq_zero hA
        unfold countErrors at this ⊢
        rw [List.countP_append, this]
        simp [errorResult]
      · rw [List.dropLast_concat]
        exact hA

/-- When no fetch but the last one has failed, a failing fetch is the last one, and the
results are those of the fetches before it followed by its Error result. -/
theorem resultsOf_failure (pre : List Fetch) (f : Fetch) (post : List Fetch) (err : String)
    (hgood : ∀ g ∈ (pre ++ f :: post).dropLast, g.failure = none)
    (hf : f.failure = some err) :
    post = [] ∧ resultsOf (pre ++ f :: post) = resultsOf pre ++ [errorResult err] ∧
      ∀ g ∈ pre, g.failure = none := by
  have hpost : post = [] := by
    by_contra hne
    have := hgood f (mem_dropLast_append_cons pre f hne)
    rw [hf] at this
    exact absurd this (by simp)
  subst hpost
  rw [List.dropLast_concat] at hgood
  refine ⟨rfl, ?_, hgood⟩
  rw [resultsOf_append]
  simp [resultsOf, Fetch.results_of_failure hf]

theorem mem_pagesFrom {first p : Int} {n : Nat} (h : p ∈ pagesFrom first n) :
    ∃ j : Nat, j < n ∧ p = first + (j : Int) := by
  induction n generalizing first with
  | zero => simp [pagesFrom] at h
  | succ n ih =>
    rw [pagesFrom, List.mem_cons] at h
    rcases h with h | h
    · exact ⟨0, Nat.succ_pos n, by simp [h]⟩
    · obtain ⟨j, hj, hp⟩ := ih h
      exact ⟨j + 1, Nat.succ_lt_succ hj, by rw [hp]; push_cast; ring⟩

/-- With a usable credential, when the pages before page `k + 1` do not fail and keep the
loop going, and page `k + 1` fails, the run fetches the pages `1, …, k + 1`, sends the
results of the pages `1, …, k` followed by the Error result of page `k + 1`, and counts
one error. -/
theorem Run_reaches_failure (s : Source) (rnd : Nat) (domain : String) (session : Session)
    (out : Trace) (h : s.Run rnd domain session = some out)
    (hkey : (PickRandom { username := "", secret := "" } s.apiKeys rnd).username ≠ "" ∧
      (PickRandom { username := "", secret := "" } s.apiKeys rnd).secret ≠ "")
    (k : Nat) (err : String)
    (hgood : ∀ j : Nat, j < k →
      (fetchPage session (PickRandom { username := "", secret := "" } s.apiKeys rnd) domain
          (1 + (j : Int))).failure = none ∧
        1 + (j : Int) + 1 ≤ pagesAfter ((pagesFrom 1 (j + 1)).map
          (fetchPage session (PickRandom { username := "", secret := "" } s.apiKeys rnd)
            domain)))
    (hfail : (fetchPage session (PickRandom { username := "", secret := "" } s.apiKeys rnd)
      domain (1 + (k : Int))).failure = some err) :
    out.requests = (pagesFrom 1 (k + 1)).map
        (request (PickRandom { username := "", secret := "" } s.apiKeys rnd) domain) ∧
      out.results = resultsOf ((pagesFrom 1 k).map
        (fetchPage session (PickRandom { username := "", secret := "" } s.apiKeys rnd)
          domain)) ++ [errorResult err] ∧
      out.source.Statistics.Errors = 1 := by
  have hc := Run_Counted s rnd domain session out h
  unfold Source.Run at h
  simp only [hkey.1, hkey.2, decide_False, Bool.or_self, Bool.false_eq_true, if_false] at h
  obtain ⟨h1, h2⟩ := pageLoop_reaches_failure session _ domain err k _ 1 1 _ out h (le_refl 1)
    hgood hfail
  simp only [List.nil_append] at h1 h2
  refine ⟨h1, h2, ?_⟩
  have hsub : ∀ r ∈ resultsOf ((pagesFrom 1 k).map
      (fetchPage session (PickRandom { username := "", secret := "" } s.apiKeys rnd) domain)),
      r.Type_ = .Subdomain := by
    apply resultsOf_ok
    intro f hf
    obtain ⟨p, hp, rfl⟩ := List.mem_map.mp hf
    obtain ⟨j, hj, rfl⟩ := mem_pagesFrom hp
    exact (hgood j hj).1
  show out.source.errors = 1
  rw [hc.2, h2]
  have := countErrors_eq_zero hsub
  unfold countErrors at this ⊢
  rw [List.countP_append, this]
  simp [errorResult]

/-- C10. Whatever the outcomes of the page fetches, `Run` returns, and: the pages are
fetched in the order 1, 2, …; at most one Error result is sent and every result before
the last one is a Subdomain result; a failing page (no response, a body that does not
decode, a payload with `error = true`) is the last page fetched, and the results sent
are those of the pages before it, in page order, all of them Subdomain results, followed
by the one Error result of the failing page; for a payload with `error = true` that
Error result carries `errmsg`. The results sent are those the fetched pages account for.
With a usable credential the run does fetch: page 1 is fetched; a run none of whose
pages has failed has gone on until the page counter exceeded the page count; a failing
page 1 yields the one fetch and the one Error result; and when the pages `1, …, k` do
not fail and keep the loop going and page `k + 1` fails, exactly the pages `1, …, k + 1`
are fetched, the results are those of the pages `1, …, k` followed by the Error result
of page `k + 1`, and `Statistics().Errors` is 1. -/
theorem Run_stops_at_failing_page (s : Source) (rnd : Nat) (domain : String)
    (session : Session) :
    ∃ out, s.Run rnd domain session = some out ∧
      (∃ n : Nat, out.requests.map (fun req => req.page) = pagesFrom 1 n) ∧
      countErrors out.results ≤ 1 ∧
      (∀ r ∈ out.results.dropLast, r.Type_ = .Subdomain) ∧
      (∀ pre req post err, out.requests = pre ++ req :: post →
        (session.SimpleGet req).failure = some err →
          post = [] ∧
          out.results = resultsOf (pre.map session.SimpleGet) ++ [errorResult err] ∧
          ∀ r ∈ resultsOf (pre.map session.SimpleGet), r.Type_ = .Subdomain) ∧
      (∀ pre req post response, out.requests = pre ++ req :: post →
        session.SimpleGet req = .decoded response → response.Error = true →
          out.results.getLast? = some (errorResult response.ErrMsg)) ∧
      out.results = resultsOf (out.requests.map session.SimpleGet) ∧
      ((PickRandom { username := "", secret := "" } s.apiKeys rnd).username ≠ "" ∧
          (PickRandom { username := "", secret := "" } s.apiKeys rnd).secret ≠ "" →
        out.requests ≠ [] ∧
        ((∀ req ∈ out.requests, (session.SimpleGet req).failure = none) →
          pagesAfter (out.requests.map session.SimpleGet) <
            (out.requests.length : Int) + 1) ∧
        (∀ err,
          (fetchPage session (PickRandom { username := "", secret := "" } s.apiKeys rnd)
            domain 1).failure = some err →
          out.requests =
              [request (PickRandom { username := "", secret := "" } s.apiKeys rnd) domain 1] ∧
            out.results = [errorResult err] ∧
            out.source.Statistics.Errors = 1 ∧ out.source.Statistics.Results = 0) ∧
        ∀ (k : Nat) (err : String),
          (∀ j : Nat, j < k →
            (fetchPage session (PickRandom { username := "", secret := "" } s.apiKeys rnd)
                domain (1 + (j : Int))).failure = none ∧
              1 + (j : Int) + 1 ≤ pagesAfter ((pagesFrom 1 (j + 1)).map
                (fetchPage session
                  (PickRandom { username := "", secret := "" } s.apiKeys rnd) domain))) →
          (fetchPage session (PickRandom { username := "", secret := "" } s.apiKeys rnd)
            domain (1 + (k : Int))).failure = some err →
          out.requests = (pagesFrom 1 (k + 1)).map
              (request (PickRandom { username := "", secret := "" } s.apiKeys rnd) domain) ∧
            out.results = resultsOf ((pagesFrom 1 k).map
              (fetchPage session (PickRandom { username := "", secret := "" } s.apiKeys rnd)
                domain)) ++ [errorResult err] ∧
            out.source.Statistics.Errors = 1) := by
  obtain ⟨out, hout⟩ := Run_returns s rnd domain session
  obtain ⟨⟨n, hreq⟩, hres, hgood⟩ := Run_trace s rnd domain session out hout
  have hfail : ∀ pre req post err, out.requests = pre ++ req :: post →
      (session.SimpleGet req).failure = some err →
        post = [] ∧
        out.results = resultsOf (pre.map session.SimpleGet) ++ [errorResult err] ∧
        ∀ r ∈ resultsOf (pre.map session.SimpleGet), r.Type_ = .Subdomain := by
    intro pre req post err hsplit hf
    rw [hsplit, List.map_append, List.map_cons] at hgood hres
    obtain ⟨h1, h2, h3⟩ := resultsOf_failure _ _ _ err hgood hf
    refine ⟨?_, ?_, resultsOf_ok h3⟩
    · cases post with
      | nil => rfl
      | cons a l => simp at h1
    · rw [hres, h2]
  refine ⟨out, hout, ⟨n, ?_⟩, ?_, ?_, hfail, ?_, hres, fun hkey => ?_⟩
  · rw [hreq, List.map_map]
    clear hreq hres hgood hfail hout
    generalize (1 : Int) = first
    induction n generalizing first with
    | zero => rfl
    | succ n ih => simp only [pagesFrom, List.map_cons, ih]; rfl
  · rw [hres]
    exact (resultsOf_shape _ hgood).1
  · rw [hres]
    exact (resultsOf_shape _ hgood).2
  · intro pre req post response hsplit hs he
    have hf : (session.SimpleGet req).failure = some response.ErrMsg := by
      rw [hs]
      simp [Fetch.failure, he]
    rw [(hfail pre req post _ hsplit hf).2.1]
    simp
  · obtain ⟨hne, hprog⟩ := Run_progress s rnd domain session out hout hkey
    refine ⟨hne, hprog, fun err hf => ?_,
      fun k err hg hf => Run_reaches_failure s rnd domain session out hout hkey k err hg hf⟩
    obtain ⟨h1, h2, h3⟩ := Run_reaches_failure s rnd domain session out hout hkey 0 err
      (fun j hj => absurd hj (Nat.not_lt_zero j)) (by simpa using hf)
    refine ⟨by simpa [pagesFrom] using h1, by simpa [pagesFrom, resultsOf] using h2, h3, ?_⟩
    have hc := Run_Counted s rnd domain session out hout
    show out.source.results = 0
    rw [hc.1, h2]
    simp [pagesFrom, resultsOf, countSubdomains, errorResult]

/-- C10 at a concrete run: page 1 is a payload of total size 1500 with two hosts, page 2 a
payload with `error = true`. The pages 1 and 2 are fetched, the two Subdomain results of
page 1 are followed by the Error result with the message of page 2, and one error is
counted. -/
theorem Run_stops_at_failing_page_witness :
    ∃ out, (Source.mk [⟨"user", "secret"⟩] 7 9 false).Run 0 "example.com" quotaSession =
        some out ∧
      out.requests.map (fun req => req.page) = [1, 2] ∧
      out.results =
        [{ Source := "fofa", Type_ := .Subdomain, Value := "www.example.com", Error := none },
         { Source := "fofa", Type_ := .Subdomain, Value := "api.example.com", Error := none },
         { Source := "fofa", Type_ := .Error, Value := "", Error := some "quota exceeded" }] ∧
      out.source.Statistics.Errors = 1 := by
  obtain ⟨out, hout, -, -, -, -, -, -, hkeyed⟩ :=
    Run_stops_at_failing_page (Source.mk [⟨"user", "secret"⟩] 7 9 false) 0 "example.com"
      quotaSession
  obtain ⟨-, -, -, hreach⟩ := hkeyed (by decide)
  obtain ⟨h1, h2, h3⟩ := hreach 1 "quota exceeded"
    (fun j hj => by
      obtain rfl : j = 0 := by omega
      decide)
    (by decide)
  refine ⟨out, hout, ?_, ?_, h3⟩
  · rw [h1]
    decide
  · rw [h2]
    decide

end fofa

/-! ## The fofa source: the value sent for a host -/

namespace strings

end strings

namespace fofa

open subscraping

end fofa

namespace fofa

open subscraping

/-- The number of page fetches when every page reports the size `size`: the loop goes on
to page `size / 1000 + 1`. -/
theorem pageLoop_full (session : Session) (randomApiKey : apiKey) (domain : String)
    (size : Int) (hsize : 0 < size)
    (hfull : ∀ req, ∃ response, session.SimpleGet req = .decoded response ∧
      response.Error = false ∧ response.Size = size) :
    ∀ (fuel : Nat) (currentPage pages : Int) (t out : Trace),
      pageLoop session randomApiKey domain fuel currentPage pages t = some out →
      (pages = size / 1000 + 1 ∨ (currentPage ≤ pages ∧ currentPage ≤ size / 1000 + 1)) →
      currentPage ≤ size / 1000 + 2 →
      out.requests = t.requests ++
        (pagesFrom currentPage (size / 1000 + 2 - currentPage).toNat).map
          (request randomApiKey domain) := by
  intro fuel
  induction fuel with
  | zero =>
    intro currentPage pages t out h
    simp [pageLoop] at h
  | succ fuel ih =>
    intro currentPage pages t out h hp hc
    rw [pageLoop] at h
    by_cases hle : currentPage ≤ pages
    · have hcp : currentPage ≤ size / 1000 + 1 := by
        rcases hp with hp | hp
        · rw [← hp]; exact hle
        · exact hp.2
      obtain ⟨response, hs, he, hz⟩ := hfull (request randomApiKey domain currentPage)
      have hpos : response.Size > 0 := by rw [hz]; exact hsize
      simp only [hle, if_true, hs, he, Bool.false_eq_true, if_false, hpos] at h
      have hpages : Int.tdiv response.Size pageSize + 1 = size / 1000 + 1 := by
        rw [Int.tdiv_eq_ediv (le_of_lt hpos) (by decide), hz]
        rfl
      have := ih _ _ _ _ h (Or.inl hpages) (by omega)
      rw [this, Trace.emit_requests]
      obtain ⟨k, hk⟩ : ∃ k : Nat, size / 1000 + 1 - currentPage = (k : Int) :=
        ⟨_, (Int.toNat_of_nonneg (by omega)).symm⟩
      have e1 : size / 1000 + 2 - (currentPage + 1) = (k : Int) := by omega
      have e2 : size / 1000 + 2 - currentPage = ((k + 1 : Nat) : Int) := by
        push_cast; omega
      rw [e1, e2, Int.toNat_ofNat, Int.toNat_ofNat]
      simp [pagesFrom]
    · simp only [hle, if_false, Option.some.injEq] at h
      subst h
      have hcur : size / 1000 + 2 - currentPage = 0 := by
        rcases hp with hp | hp
        · omega
        · exact absurd hp.1 hle
      rw [hcur]
      simp [pagesFrom]

/-- With a usable credential, when every page fetch yields an undamaged payload that
reports the size `size ≥ 1`, `Run` fetches the pages `1, …, size / 1000 + 1`. -/
theorem Run_full_requests (s : Source) (rnd : Nat) (domain : String) (session : Session)
    (size : Int) (hsize : 0 < size)
    (hkey : (PickRandom { username := "", secret := "" } s.apiKeys rnd).username ≠ "" ∧
      (PickRandom { username := "", secret := "" } s.apiKeys rnd).secret ≠ "")
    (hfull : ∀ req, ∃ response, session.SimpleGet req = .decoded response ∧
      response.Error = false ∧ response.Size = size) :
    ∃ out, s.Run rnd domain session = some out ∧
      out.requests.map (fun req => req.page) = pagesFrom 1 (size / 1000 + 1).toNat := by
  obtain ⟨out, hout⟩ := Run_returns s rnd domain session
  refine ⟨out, hout, ?_⟩
  unfold Source.Run at hout
  simp only [hkey.1, hkey.2, decide_False, Bool.or_self, Bool.false_eq_true, if_false] at hout
  have := pageLoop_full session _ domain size hsize hfull _ _ _ _ _ hout
    (Or.inr ⟨le_refl _, by omega⟩) (by omega)
  rw [this]
  have e : size / 1000 + 2 - 1 = size / 1000 + 1 := by omega
  rw [e, List.nil_append, List.map_map]
  generalize (size / 1000 + 1).toNat = n
  generalize (1 : Int) = first
  induction n generalizing first with
  | zero => rfl
  | succ n ih => simp only [pagesFrom, List.map_cons, ih]; rfl

/-- C9 at the total size 1000: every page reports `size = 1000`, page 1 holds the 1000
hosts and page 2 none. `Run` fetches the pages 1 and 2, while `ceil(1000 / 1000)` is 1. -/
theorem Run_size_1000_fetches_two_pages :
    (∃ out, (Source.mk [⟨"user", "secret"⟩] 0 0 false).Run 0 "example.com"
        (fullSession 1000 (by decide)
          (fun page => if page = 1 then List.replicate 1000 "www.example.com" else [])) =
          some out ∧
        out.requests.map (fun req => req.page) = [1, 2]) ∧
      ceilPages 1000 = 1 := by
  refine ⟨?_, by decide⟩
  exact Run_full_requests _ 0 "example.com" _ 1000 (by decide) (by decide)
    (fun req => ⟨_, rfl, rfl, rfl⟩)

end fofa
